/-
Verification of the Piece Index & Announcement Core of the boost repository
against its design document.

The development shallowly embeds the two source files the claims are about:
  * extern/boostd-data/ldb/db.go  — the Local Index Directory store over LevelDB
  * indexprovider/wrapper.go      — the shard-migration / announcement wrapper

The LevelDB key space is embedded structurally: the Go code disambiguates the
four tables by injective varint string prefixes ("\x01/<pieceCid>",
"\x02<mh>", "\x03/<pieceCid>", "<cursor>/<mh>"), so the store is modelled as
four association lists keyed by the decoded key contents.  PieceCids and
multihashes are opaque identifiers with decidable equality, modelled as Nat.
Values under the cursor table are the raw varint byte strings the Go code
stores, with Go's binary.PutUvarint / binary.Uvarint modelled bit-faithfully.
Backend (LevelDB) failures, which in Go abort an operation before its batch
is committed, are modelled by an explicit commit flag where a claim depends
on the failure path.
-/
import Mathlib

namespace Boost

/-! ## Association-list store primitives

LevelDB `Get` / `Put` / `Delete` on one table, with keys compared by
decidable equality.  `alPut` overwrites the first binding, `alDel` removes
every binding of the key (a LevelDB key is bound at most once). -/

def alGet {κ ν : Type} [DecidableEq κ] : List (κ × ν) → κ → Option ν
  | [], _ => none
  | (k', v) :: t, k => if k' = k then some v else alGet t k

def alPut {κ ν : Type} [DecidableEq κ] : List (κ × ν) → κ → ν → List (κ × ν)
  | [], k, v => [(k, v)]
  | (k', v') :: t, k, v => if k' = k then (k, v) :: t else (k', v') :: alPut t k v

def alDel {κ ν : Type} [DecidableEq κ] : List (κ × ν) → κ → List (κ × ν)
  | [], _ => []
  | (k', v') :: t, k => if k' = k then alDel t k else (k', v') :: alDel t k

/-! ## Go varint codec (encoding/binary)

`putUvarint` is Go's `binary.PutUvarint` on an unbounded natural: while
`x >= 0x80` it emits `byte(x)|0x80` (that is, `x % 0x80 + 0x80`) and shifts
by 7; the final byte is `x` itself.  `uvarint` is Go's `binary.Uvarint`:
it refuses more than 10 bytes, and a 10th (final) byte above 1, returning
`n <= 0` in Go, modelled as `none`; on success it returns the decoded value
and the number of bytes consumed.  Go accumulates with bitwise or of
disjoint 7-bit groups, which equals the addition used here. -/

def putUvarint (x : Nat) : List Nat :=
  if x < 128 then [x]
  else (x % 128 + 128) :: putUvarint (x / 128)
termination_by x
decreasing_by
  exact Nat.div_lt_self (by omega) (by omega)

def uvarintAux : List Nat → Nat → Nat → Nat → Option (Nat × Nat)
  | [], _, _, _ => none
  | b :: rest, i, s, x =>
    if i = 10 then none
    else if b < 128 then
      if i = 9 ∧ 1 < b then none
      else some (x + b * 2 ^ s, i + 1)
    else uvarintAux rest (i + 1) (s + 7) (x + b % 128 * 2 ^ s)

def uvarint (buf : List Nat) : Option (Nat × Nat) :=
  uvarintAux buf 0 0 0

/-! ## Data model (ldb/db.go)

PieceCids and multihashes only ever flow through the claims as opaque keys
with decidable equality; both are modelled as Nat.  A piece's metadata
record keeps the fields the claims touch: `Cursor`, `Error`, `ErrorType`
(the remaining fields of the Go struct do not appear in any claim).  A
`Record` of the CAR index is used through `r.Cid.Hash()` only, so it
carries the multihash of its cid directly. -/

abbrev PieceCid := Nat

abbrev Mh := Nat

structure LeveldbMetadata where
  cursor : Nat
  «error» : String
  errorType : String
deriving DecidableEq, Repr

structure LeveldbFlaggedMetadata where
  createdAt : Int
deriving DecidableEq, Repr

structure OffsetSize where
  offset : Nat
  size : Nat
deriving DecidableEq, Repr

structure Record where
  cid : Mh
  offset : Nat
  size : Nat
deriving DecidableEq, Repr

/-- LevelDB store of ldb/db.go, split along its four injective key
prefixes: `\x01/<pieceCid>` piece metadata, `\x02<mh>` multihash→pieceCids
inversion sets (stored as JSON lists, modelled as lists), `\x03/<pieceCid>`
flagged pieces, and `<cursor>/<mh>` per-piece index records holding the raw
`varint(offset)||varint(size)` bytes. -/
structure DB where
  metadata : List (PieceCid × LeveldbMetadata)
  mhToPieces : List (Mh × List PieceCid)
  flagged : List (PieceCid × LeveldbFlaggedMetadata)
  indexRecs : List ((Nat × Mh) × List Nat)
deriving DecidableEq, Repr

/-- Backend error classes surfaced by the store operations.  `notFound`
is LevelDB's ErrNotFound; `backend` is any other datastore failure. -/
inductive LdbErr where
  | notFound
  | backend
deriving DecidableEq, Repr

/-! ## LID store operations (ldb/db.go) -/

/-- GetPieceCidsByMultihash (db.go:124): reads the `\x02<mh>` key and
unmarshals the pieceCid list; an absent key surfaces LevelDB ErrNotFound. -/
def GetPieceCidsByMultihash (db : DB) (mh : Mh) : Except LdbErr (List PieceCid) :=
  match alGet db.mhToPieces mh with
  | none => .error .notFound
  | some pcids => .ok pcids

/-- Batch accumulated by SetMultihashesToPieceCid (db.go:144): for each
record, the existing inversion set is read from the datastore (not the
batch); an absent key yields a put of `[pieceCid]`, a set already containing
`pieceCid` yields no write, otherwise the set is rewritten with `pieceCid`
appended. -/
def setMhBatch (db : DB) (p : PieceCid) : List Record → List (Mh × List PieceCid)
  | [] => []
  | r :: rs =>
    let rest := setMhBatch db p rs
    match alGet db.mhToPieces r.cid with
    | none => (r.cid, [p]) :: rest
    | some pcids => if p ∈ pcids then rest else (r.cid, pcids ++ [p]) :: rest

/-- SetMultihashesToPieceCid (db.go:144): commits the accumulated batch
atomically (puts applied in order), then syncs the multihash prefix (the
sync has no effect on the store contents and is not modelled). -/
def SetMultihashesToPieceCid (db : DB) (recs : List Record) (p : PieceCid) : DB :=
  { db with mhToPieces := (setMhBatch db p recs).foldl (fun m kv => alPut m kv.1 kv.2) db.mhToPieces }

/-- GetPieceCidToMetadata (db.go:272). -/
def GetPieceCidToMetadata (db : DB) (p : PieceCid) : Except LdbErr LeveldbMetadata :=
  match alGet db.metadata p with
  | none => .error .notFound
  | some md => .ok md

/-- SetPieceCidToMetadata (db.go:257). -/
def SetPieceCidToMetadata (db : DB) (p : PieceCid) (md : LeveldbMetadata) : DB :=
  { db with metadata := alPut db.metadata p md }

/-- MarkIndexErrored (db.go:293): reads the piece metadata; an absent piece
is an error; when the `Error` field is already non-empty it returns without
overwriting; otherwise it stores the source error's message and type tag.
The resulting store is returned alongside the outcome so that the
unchanged-on-no-overwrite behaviour is visible. -/
def MarkIndexErrored (db : DB) (p : PieceCid) (errMsg errType : String) : Option LdbErr × DB :=
  match alGet db.metadata p with
  | none => (some .notFound, db)
  | some md =>
    if md.error ≠ "" then (none, db)
    else (none, SetPieceCidToMetadata db p { md with «error» := errMsg, errorType := errType })

/-- AddIndexRecord (db.go:361): writes key `<cursorPrefix><mh>` with value
`varint(offset) || varint(size)`.  The cursor prefix string `"N/"` is
injectively determined by the cursor `N`, so the key is modelled as the
pair `(cursor, mh)`. -/
def AddIndexRecord (db : DB) (cursor : Nat) (rec : Record) : DB :=
  { db with indexRecs := alPut db.indexRecs (cursor, rec.cid) (putUvarint rec.offset ++ putUvarint rec.size) }

/-- GetOffsetSize (db.go:375): reads the `<cursorPrefix><mh>` key and
decodes two varints.  Go ignores decode failure (computing junk from the
zero value); the stored values are always canonical encodings, on which the
two agree, and the failure path is modelled as `none`. -/
def GetOffsetSize (db : DB) (cursor : Nat) (mh : Mh) : Option OffsetSize :=
  match alGet db.indexRecs (cursor, mh) with
  | none => none
  | some b =>
    match uvarint b with
    | none => none
    | some (off, n) =>
      match uvarint (b.drop n) with
      | none => none
      | some (sz, _) => some ⟨off, sz⟩

/-- Loop body of RemoveIndexes removing `p` from an inversion set
(db.go:604-609): Go iterates the slice by index, and on a match overwrites
the matched position with the current last element and shortens the slice
by one; reads and writes share the backing array.  `backing` is the backing
array, `lv` the current logical length, `i` the iteration index, `n` the
original length captured by `range`.  Out-of-range reads return 0; they do
not occur on duplicate-free sets, the only ones the store produces (Go
would panic there). -/
def removePcidAux (p : PieceCid) (backing : List PieceCid) (lv i n : Nat) : List PieceCid × Nat :=
  if i < n then
    if backing.getD i 0 = p then
      removePcidAux p (backing.set i (backing.getD (lv - 1) 0)) (lv - 1) (i + 1) n
    else
      removePcidAux p backing lv (i + 1) n
  else (backing, lv)
termination_by n - i

/-- Swap-remove of `p` from an inversion set, as performed by RemoveIndexes
(db.go:604-609): run the loop, then keep the logical prefix. -/
def removePcid (pcids : List PieceCid) (p : PieceCid) : List PieceCid :=
  let r := removePcidAux p pcids pcids.length 0 pcids.length
  r.1.take r.2

/-- Mutation recorded into the batch of RemoveIndexes before its single
commit: rewrite or delete an inversion set, or delete an index record. -/
inductive BatchOp where
  | putMh (m : Mh) (v : List PieceCid)
  | delMh (m : Mh)
  | delRec (k : Nat × Mh)
deriving DecidableEq, Repr

/-- Inversion-set mutation RemoveIndexes batches for one scanned multihash
(db.go:574-620): reads the `\x02<mh>` key from the datastore; an absent key
or a set not containing `p` contributes nothing; a set of length at most
one is deleted outright; otherwise `p` is swap-removed and the set
rewritten. -/
def mhOpFor (db : DB) (p : PieceCid) (m : Mh) : Option BatchOp :=
  match alGet db.mhToPieces m with
  | none => none
  | some pcids =>
    if p ∈ pcids then
      some (if pcids.length ≤ 1 then .delMh m else .putMh m (removePcid pcids p))
    else none

/-- Batch built by the RemoveIndexes scan loop (db.go:566-629): for every
index record key under the cursor, in scan order, the inversion-set
mutation (when any) followed by the deletion of the index record itself. -/
def riOps (db : DB) (p : PieceCid) (keys : List (Nat × Mh)) : List BatchOp :=
  keys.flatMap fun k => (mhOpFor db p k.2).toList ++ [BatchOp.delRec k]

/-- Application of one committed batch mutation to the store. -/
def applyOp (db : DB) : BatchOp → DB
  | .putMh m v => { db with mhToPieces := alPut db.mhToPieces m v }
  | .delMh m => { db with mhToPieces := alDel db.mhToPieces m }
  | .delRec k => { db with indexRecs := alDel db.indexRecs k }

/-- Index record keys the `<cursor>/` prefix scan of RemoveIndexes yields,
in store order. -/
def cursorKeys (db : DB) (cursor : Nat) : List (Nat × Mh) :=
  (db.indexRecs.filter (fun e => e.1.1 = cursor)).map (·.1)

/-- RemoveIndexes (db.go:547): scans the `<cursor>/` prefix, batches the
per-multihash inversion-set removals and the index-record deletions, and
commits the batch once at the end.  All mutations reach the store only at
the commit; `commitOk = false` models a backend failure of the commit, on
which the store is unchanged.  The result carries the possibly-failed
outcome together with the resulting store. -/
def RemoveIndexes (db : DB) (cursor : Nat) (p : PieceCid) (commitOk : Bool) : Option LdbErr × DB :=
  if commitOk then (none, (riOps db p (cursorKeys db cursor)).foldl applyOp db)
  else (some .backend, db)

/-- RemovePieceMetadata (db.go:511): looks up the piece metadata to obtain
the cursor, first calls RemoveIndexes with that cursor, and only on its
success deletes the metadata key.  An absent piece surfaces LevelDB
ErrNotFound; a RemoveIndexes failure is returned with the store as
RemoveIndexes left it. -/
def RemovePieceMetadata (db : DB) (p : PieceCid) (commitOk : Bool) : Option LdbErr × DB :=
  match alGet db.metadata p with
  | none => (some .notFound, db)
  | some md =>
    match RemoveIndexes db md.cursor p commitOk with
    | (some e, db') => (some e, db')
    | (none, db') => (none, { db' with metadata := alDel db'.metadata p })

/-! ## Piece doctor scan (ldb/db.go NextPiecesToCheck) -/

/-- MinPieceCheckPeriod (db.go:396), in the abstract time unit of the
model (Go uses 30 seconds of wall-clock time; only its positivity and
arithmetic relation to call times matter). -/
def minPieceCheckPeriod : Int := 30

/-- PiecesToTrackerBatchSize (db.go:405). -/
def piecesToTrackerBatchSize : Nat := 1024

/-- Package-level mutable state of the doctor scan (db.go:399-402): the
ring offset into the piece-key table and the in-memory map from piece cid
to the time it was last handed out. -/
structure DoctorState where
  offset : Nat
  checked : List (PieceCid × Int)
deriving DecidableEq, Repr

/-- Already-checked test of NextPiecesToCheck (db.go:440-446): a piece is
skipped when its recorded last check `t` satisfies
`t.After(now.Add(-MinPieceCheckPeriod))` — strictly later than
`now - MinPieceCheckPeriod`. -/
def nptcSkip (now : Int) (checked : List (PieceCid × Int)) (k : PieceCid) : Bool :=
  match alGet checked k with
  | some t => decide (now - minPieceCheckPeriod < t)
  | none => false

/-- Scan loop of NextPiecesToCheck (db.go:432-455): for each key of the
query window, a piece failing the `nptcSkip` test has its `checked` entry
set to `now` and is returned.  The third component counts every consumed
key (Go's `i`). -/
def nptcLoop (now : Int) : List PieceCid → List (PieceCid × Int) → List PieceCid × List (PieceCid × Int) × Nat
  | [], checked => ([], checked, 0)
  | k :: rest, checked =>
    if nptcSkip now checked k then
      let r := nptcLoop now rest checked
      (r.1, r.2.1, r.2.2 + 1)
    else
      let r := nptcLoop now rest (alPut checked k now)
      (k :: r.1, r.2.1, r.2.2 + 1)

/-- NextPiecesToCheck (db.go:412): keys-only query over the piece metadata
prefix with the batch-size limit and the ring offset (the store's key order
is the association-list order of the model); the loop filters by last-check
time; the offset advances by the number of keys consumed and resets to zero
when fewer than `PiecesToTrackerBatchSize - 1` keys were yielded. -/
def NextPiecesToCheck (db : DB) (st : DoctorState) (now : Int) : List PieceCid × DoctorState :=
  let window := ((db.metadata.map (·.1)).drop st.offset).take piecesToTrackerBatchSize
  let r := nptcLoop now window st.checked
  let off := st.offset + r.2.2
  (r.1, ⟨if r.2.2 < piecesToTrackerBatchSize - 1 then 0 else off, r.2.1⟩)

/-- Sequence of NextPiecesToCheck calls from a single caller at the given
times, starting from a doctor state, collecting each call's returned
pieces. -/
def runDoctor (db : DB) : DoctorState → List Int → List (List PieceCid)
  | _, [] => []
  | st, now :: rest =>
    let r := NextPiecesToCheck db st now
    r.1 :: runDoctor db r.2 rest

/-- Doctor state after a sequence of NextPiecesToCheck calls. -/
def doctorStateAfter (db : DB) : DoctorState → List Int → DoctorState
  | st, [] => st
  | st, now :: rest => doctorStateAfter db (NextPiecesToCheck db st now).2 rest

/-! ## Index-provider wrapper (indexprovider/wrapper.go)

Deal checkpoints: modelled from the spec (the `dealcheckpoints` package is
outside src/; its callers compare checkpoints with `<` and `>=`).  The spec
fixes the order `Accepted → Transferred → Published → ... →
IndexedAndAnnounced → Complete`, with `Complete` the last state; a
checkpoint is its rank in that order, and only the ranks of
`IndexedAndAnnounced` and `Complete` and their relative order matter. -/

def IndexedAndAnnounced : Nat := 5

def Complete : Nat := 6

/-- Active deal as seen by the wrapper: the fields of
`types.ProviderDealState` the announce and migration paths read. -/
structure Deal where
  pieceCid : PieceCid
  checkpoint : Nat
deriving DecidableEq, Repr

/-- Environment of one DagstoreReinitBoostDeals run: the outcome of
`dealsDB.ListActive`, the presence of the migration marker file
(`boostRegistrationComplete`, wrapper.go:426), whether the context was
cancelled before the acknowledgement consumer finished, and the outcome of
creating the marker file (`markBoostRegistrationComplete`,
wrapper.go:439). -/
structure ReinitEnv where
  listActiveOk : Bool
  deals : List Deal
  markerPresent : Bool
  ctxCancelled : Bool
  markerWriteOk : Bool
deriving DecidableEq, Repr

/-- Outcome of DagstoreReinitBoostDeals: the `migrated` boolean it returns,
whether it returned an error, the deals offered to
`dagStore.RegisterShard` in order, the count of successful registrations
(the number acknowledged over the result channel), and whether the marker
file was created. -/
structure ReinitResult where
  migrated : Bool
  failed : Bool
  offered : List Deal
  registered : Nat
  markerWritten : Bool
deriving DecidableEq, Repr

/-- DagstoreReinitBoostDeals (wrapper.go:321): lists active deals; checks
the migration marker and bails out with `(false, nil)` when present; offers
every deal whose checkpoint is at least IndexedAndAnnounced to
RegisterShard (`regOk` gives each registration's immediate outcome — a
failure is logged and skipped); consumes the registration acknowledgements
(their per-shard errors are logged and ignored — modelled away as they
affect nothing); on context cancellation returns the error without writing
the marker; otherwise writes the marker — a write failure is only logged —
and returns `(true, nil)`. -/
def DagstoreReinitBoostDeals (env : ReinitEnv) (regOk : Deal → Bool) : ReinitResult :=
  if !env.listActiveOk then ⟨false, true, [], 0, false⟩
  else if env.markerPresent then ⟨false, false, [], 0, false⟩
  else
    let offered := env.deals.filter fun d => IndexedAndAnnounced ≤ d.checkpoint
    let registered := (offered.filter regOk).length
    if env.ctxCancelled then ⟨false, true, offered, registered, false⟩
    else ⟨true, false, offered, registered, env.markerWriteOk⟩

/-! ## Announcement paths (indexprovider/wrapper.go) -/

/-- Go error values flowing through the announce paths: the
`ErrAlreadyAdvertised` sentinel of the provider engine, an `errors.New`
value with its message, and a `fmt.Errorf("...: %w", inner)` wrap. -/
inductive GoErr where
  | errAlreadyAdvertised
  | errNew (msg : String)
  | wrap (msg : String) (inner : GoErr)
deriving DecidableEq, Repr

/-- Go `errors.Is`: equality, unwrapping `%w` wraps. -/
def errIs : GoErr → GoErr → Bool
  | .wrap m inner, t => (GoErr.wrap m inner == t) || errIs inner t
  | e, t => e == t

/-- Disabled-kind error: the two `errors.New` values the wrapper returns
when `w.enabled` is false (wrapper.go:153, 191, 289). -/
def isDisabledErr : GoErr → Bool
  | .errNew msg =>
    msg = "cannot announce all deals: index provider is disabled" ||
    msg = "cannot announce deal: index provider is disabled"
  | _ => false

/-- Externally visible side effects of the announce paths: connecting the
publish mesh, `NotifyPut` with a context id, `GetLatestAdv`, and
`Publish`. -/
inductive Effect where
  | meshConnect
  | notifyPut (contextId : Nat)
  | getLatestAdv
  | publish
deriving DecidableEq, Repr

/-- Environment of the announce paths: the wrapper's `enabled` and
`bitswapEnabled` flags, whether an extended provider record is configured
(public bitswap addresses present), the provider engine's `NotifyPut`
outcome per context id, and the outcomes of the engine calls of
AnnounceExtendedProviders. -/
structure AnnounceEnv where
  enabled : Bool
  bitswapEnabled : Bool
  hasExtendedProvider : Bool
  notifyPut : Nat → Except GoErr Nat
  getLatestAdvOk : Bool
  buildSignOk : Bool
  publishOk : Bool

/-- Deal as consumed by AnnounceBoostDeal: its signed proposal cid
(`pds.SignedProposalCid()`, which can fail) and its checkpoint; the
metadata descriptor fields (piece cid, fast-retrieval, verified) do not
influence control flow. -/
structure AnnDeal where
  signedPropCid : Option Nat
  checkpoint : Nat

/-- AnnounceBoostDeal (wrapper.go:287): fails with the disabled error when
the provider is disabled, before any effect; otherwise connects the mesh
(failure only logged), computes the signed proposal cid, and calls
`NotifyPut` with it as context id, wrapping a NotifyPut failure with
`fmt.Errorf("failed to announce deal to index provider: %w", err)`. -/
def AnnounceBoostDeal (env : AnnounceEnv) (d : AnnDeal) : Except GoErr Nat × List Effect :=
  if !env.enabled then (.error (.errNew "cannot announce deal: index provider is disabled"), [])
  else
    match d.signedPropCid with
    | none => (.error (.errNew "failed to get proposal cid from deal"), [.meshConnect])
    | some propCid =>
      match env.notifyPut propCid with
      | .error e => (.error (.wrap "failed to announce deal to index provider" e), [.meshConnect, .notifyPut propCid])
      | .ok annCid => (.ok annCid, [.meshConnect, .notifyPut propCid])

/-- Outcome of IndexerAnnounceAllDeals: the early error (disabled or
ListActive failure) when any, the accumulated multierror (`nil` in Go iff
the list is empty), the success count, and the effects performed. -/
structure AllDealsResult where
  err : Option GoErr
  merr : List GoErr
  nSuccess : Nat
  effects : List Effect

/-- Per-deal accumulation loop of IndexerAnnounceAllDeals
(wrapper.go:214-234): deals below IndexedAndAnnounced or at or past
Complete are skipped; an announce failure satisfying
`errors.Is(err, ErrAlreadyAdvertised)` is skipped without joining the
multierror; other failures join it; successes are counted. -/
def announceAllLoop (env : AnnounceEnv) : List AnnDeal → List GoErr × Nat × List Effect
  | [] => ([], 0, [])
  | d :: rest =>
    let r := announceAllLoop env rest
    if d.checkpoint < IndexedAndAnnounced ∨ Complete ≤ d.checkpoint then r
    else
      match AnnounceBoostDeal env d with
      | (.error e, effs) =>
        if errIs e .errAlreadyAdvertised then (r.1, r.2.1, effs ++ r.2.2)
        else (e :: r.1, r.2.1, effs ++ r.2.2)
      | (.ok _, effs) => (r.1, r.2.1 + 1, effs ++ r.2.2)

/-- IndexerAnnounceAllDeals (wrapper.go:190): fails with the disabled error
when the provider is disabled, before any effect (the legacy-provider
announcement, whose error is only logged, is not modelled); a ListActive
failure is returned; otherwise the per-deal loop runs and the accumulated
multierror is returned — `nil` when empty. -/
def IndexerAnnounceAllDeals (env : AnnounceEnv) (listActiveOk : Bool) (deals : List AnnDeal) : AllDealsResult :=
  if !env.enabled then ⟨some (.errNew "cannot announce all deals: index provider is disabled"), [], 0, []⟩
  else if !listActiveOk then ⟨some (.errNew "failed to list deals"), [], 0, []⟩
  else
    let r := announceAllLoop env deals
    ⟨none, r.1, r.2.1, r.2.2⟩

/-- AnnounceExtendedProviders (wrapper.go:151): fails with the disabled
error when the provider is disabled, before any effect; returns without
publishing when bitswap is not enabled; otherwise builds the
extended-providers advertisement (metadata marshalling modelled as
succeeding), chains `GetLatestAdv`, signs, and publishes. -/
def AnnounceExtendedProviders (env : AnnounceEnv) : Option GoErr × List Effect :=
  if !env.enabled then (some (.errNew "cannot announce all deals: index provider is disabled"), [])
  else if !env.bitswapEnabled then (none, [])
  else if !env.getLatestAdvOk then (some (.errNew "failed to get latest advertisement"), [.getLatestAdv])
  else if !env.buildSignOk then (some (.errNew "failed to build and sign advertisement"), [.getLatestAdv])
  else if !env.publishOk then (some (.errNew "failed to publish advertisement"), [.getLatestAdv, .publish])
  else (none, [.getLatestAdv, .publish])

/-! ## Proof-side helper definitions

These do not embed source code; they name the outcomes the lemmas below
establish about the batched operations. -/

/-- Inversion set for multihash `m` after SetMultihashesToPieceCid ran for
piece `p`: created as `[p]` when absent, unchanged when `p` already
present, extended by `p` otherwise. -/
def mhNewVal (db : DB) (p : PieceCid) (m : Mh) : List PieceCid :=
  match alGet db.mhToPieces m with
  | none => [p]
  | some l => if p ∈ l then l else l ++ [p]

/-- Whether a batch mutation touches the inversion set of multihash `m`. -/
def opTargets (op : BatchOp) (m : Mh) : Bool :=
  match op with
  | .putMh m' _ => m' == m
  | .delMh m' => m' == m
  | .delRec _ => false

/-- Last batch mutation touching the inversion set of multihash `m`, the
one whose effect survives the in-order batch application. -/
def lastMhOp : List BatchOp → Mh → Option BatchOp
  | [], _ => none
  | op :: rest, m =>
    match lastMhOp rest m with
    | some o => some o
    | none => if opTargets op m then some op else none

/-! ## Lemmas: association-list primitives -/

theorem alGet_alPut_same {κ ν : Type} [DecidableEq κ] (l : List (κ × ν)) (k : κ) (v : ν) :
    alGet (alPut l k v) k = some v := by
  induction l with
  | nil => simp [alPut, alGet]
  | cons hd t ih =>
    obtain ⟨k', v'⟩ := hd
    by_cases hk : k' = k
    · simp [alPut, hk, alGet]
    · simp [alPut, hk, alGet, ih]

theorem alGet_alPut_ne {κ ν : Type} [DecidableEq κ] (l : List (κ × ν)) {k₀ k : κ} (v : ν)
    (h : k₀ ≠ k) : alGet (alPut l k₀ v) k = alGet l k := by
  induction l with
  | nil => simp [alPut, alGet, h]
  | cons hd t ih =>
    obtain ⟨k', v'⟩ := hd
    by_cases hk : k' = k₀
    · subst hk
      simp [alPut, alGet, h]
    · simp [alPut, hk, alGet, ih]

theorem alGet_alDel_same {κ ν : Type} [DecidableEq κ] (l : List (κ × ν)) (k : κ) :
    alGet (alDel l k) k = none := by
  induction l with
  | nil => simp [alDel, alGet]
  | cons hd t ih =>
    obtain ⟨k', v'⟩ := hd
    by_cases hk : k' = k
    · simp [alDel, hk, ih]
    · simp [alDel, hk, alGet, ih]

theorem alGet_alDel_ne {κ ν : Type} [DecidableEq κ] (l : List (κ × ν)) {k₀ k : κ}
    (h : k₀ ≠ k) : alGet (alDel l k₀) k = alGet l k := by
  induction l with
  | nil => simp [alDel, alGet]
  | cons hd t ih =>
    obtain ⟨k', v'⟩ := hd
    by_cases hk : k' = k₀
    · subst hk
      simp [alDel, alGet, h, ih]
    · simp [alDel, hk, alGet, ih]

/-! ## Lemmas: varint roundtrip -/

theorem putUvarint_length_pos (x : Nat) : 0 < (putUvarint x).length := by
  rw [putUvarint]
  split <;> simp

theorem uvarintAux_putUvarint (x : Nat) : ∀ (i s acc : Nat) (rest : List Nat),
    i ≤ 9 → x * 2 ^ (7 * i) < 2 ^ 64 →
    uvarintAux (putUvarint x ++ rest) i s acc
      = some (acc + x * 2 ^ s, i + (putUvarint x).length) := by
  induction x using Nat.strong_induction_on with
  | _ x ih =>
    intro i s acc rest hi hx
    rw [putUvarint]
    by_cases hsmall : x < 128
    · simp only [if_pos hsmall, List.cons_append, List.nil_append, List.length_cons,
        List.length_nil]
      rw [uvarintAux]
      have hi10 : ¬ i = 10 := by omega
      rw [if_neg hi10, if_pos hsmall]
      have : ¬ (i = 9 ∧ 1 < x) := by
        rintro ⟨h9, hx1⟩
        subst h9
        have : 2 * 2 ^ (7 * 9) ≤ x * 2 ^ (7 * 9) :=
          Nat.mul_le_mul_right _ (by omega)
        norm_num at this hx
        omega
      rw [if_neg this]
    · simp only [if_neg hsmall, List.cons_append, List.length_cons]
      rw [uvarintAux]
      have hge : 128 ≤ x := by omega
      have hi10 : ¬ i = 10 := by omega
      rw [if_neg hi10]
      have hb : ¬ (x % 128 + 128 < 128) := by omega
      rw [if_neg hb]
      have hdivlt : x / 128 < x := Nat.div_lt_self (by omega) (by omega)
      have hi9 : i ≤ 8 := by
        by_contra hgt
        have h9 : i = 9 := by omega
        subst h9
        have : 128 * 2 ^ (7 * 9) ≤ x * 2 ^ (7 * 9) :=
          Nat.mul_le_mul_right _ hge
        norm_num at this hx
        omega
      have hpow : (2 : Nat) ^ (7 * (i + 1)) = 2 ^ (7 * i) * 128 := by
        rw [Nat.mul_succ, pow_add]
        norm_num
      have hxdiv : x / 128 * 2 ^ (7 * (i + 1)) < 2 ^ 64 := by
        have h1 : x / 128 * 2 ^ (7 * (i + 1)) ≤ x * 2 ^ (7 * i) := by
          calc x / 128 * 2 ^ (7 * (i + 1)) = x / 128 * 128 * 2 ^ (7 * i) := by
                rw [hpow]; ring
            _ ≤ x * 2 ^ (7 * i) := Nat.mul_le_mul_right _ (Nat.div_mul_le_self x 128)
        omega
      rw [ih (x / 128) hdivlt (i + 1) (s + 7) _ rest (by omega) hxdiv]
      have hmod : (x % 128 + 128) % 128 = x % 128 := by omega
      have hmd : x % 128 + 128 * (x / 128) = x := Nat.mod_add_div x 128
      congr 2
      · calc acc + (x % 128 + 128) % 128 * 2 ^ s + x / 128 * 2 ^ (s + 7)
            = acc + (x % 128 + 128 * (x / 128)) * 2 ^ s := by
              rw [hmod, pow_add]
              ring
          _ = acc + x * 2 ^ s := by rw [hmd]
      · omega

theorem uvarint_putUvarint (x : Nat) (rest : List Nat) (hx : x < 2 ^ 64) :
    uvarint (putUvarint x ++ rest) = some (x, (putUvarint x).length) := by
  have := uvarintAux_putUvarint x 0 0 0 rest (by omega) (by simpa using hx)
  simpa [uvarint] using this

/-! ## Claim C7 -/

/-- C7: for every store, cursor prefix and record, AddIndexRecord followed
by GetOffsetSize on the record's multihash returns exactly the record's
offset and length (both are uint64 values in Go, whence the bounds). -/
theorem addIndexRecord_getOffsetSize (db : DB) (cursor : Nat) (rec : Record)
    (hoff : rec.offset < 2 ^ 64) (hsz : rec.size < 2 ^ 64) :
    GetOffsetSize (AddIndexRecord db cursor rec) cursor rec.cid
      = some ⟨rec.offset, rec.size⟩ := by
  have hget : alGet (AddIndexRecord db cursor rec).indexRecs (cursor, rec.cid)
      = some (putUvarint rec.offset ++ putUvarint rec.size) := by
    simp [AddIndexRecord, alGet_alPut_same]
  have h1 := uvarint_putUvarint rec.offset (putUvarint rec.size) hoff
  have hdrop : (putUvarint rec.offset ++ putUvarint rec.size).drop
      (putUvarint rec.offset).length = putUvarint rec.size := List.drop_left _ _
  have h2 : uvarint (putUvarint rec.size) = some (rec.size, (putUvarint rec.size).length) := by
    have := uvarint_putUvarint rec.size [] hsz
    simpa using this
  simp [GetOffsetSize, hget, h1, hdrop, h2]

/-- Witness for C7 at a concrete store and record. -/
theorem addIndexRecord_getOffsetSize_witness :
    GetOffsetSize (AddIndexRecord ⟨[], [], [], []⟩ 100 ⟨5, 3, 300⟩) 100 5
      = some ⟨3, 300⟩ :=
  addIndexRecord_getOffsetSize ⟨[], [], [], []⟩ 100 ⟨5, 3, 300⟩ (by norm_num) (by norm_num)

/-! ## Claim C1 -/

/-- C1 counterexample: on a marker-absent store with a single active deal
whose checkpoint is Complete — outside the claimed interval
`[IndexedAndAnnounced, Complete)` — DagstoreReinitBoostDeals does offer the
deal's piece for shard registration: the only filter in the code
(wrapper.go:384) is `checkpoint < IndexedAndAnnounced`, with no upper
bound, so the claim's "never registered" is false at this input. -/
theorem dagstoreReinit_offers_complete_deal :
    (DagstoreReinitBoostDeals ⟨true, [⟨7, 6⟩], false, false, true⟩ (fun _ => true)).offered
      = [⟨7, 6⟩] ∧ ¬ ((6 : Nat) ≥ IndexedAndAnnounced ∧ (6 : Nat) < Complete) := by
  constructor
  · decide
  · decide

/-- C1 amended: DagstoreReinitBoostDeals offers a piece for shard
registration exactly for those active deals whose checkpoint is at least
IndexedAndAnnounced; deals at or past Complete are offered as well, the
only excluded deals being those below IndexedAndAnnounced. -/
theorem dagstoreReinit_offered_iff (env : ReinitEnv) (regOk : Deal → Bool) (d : Deal)
    (hlist : env.listActiveOk = true) (hmarker : env.markerPresent = false) :
    d ∈ (DagstoreReinitBoostDeals env regOk).offered
      ↔ d ∈ env.deals ∧ IndexedAndAnnounced ≤ d.checkpoint := by
  by_cases hc : env.ctxCancelled <;>
    simp [DagstoreReinitBoostDeals, hlist, hmarker, hc, List.mem_filter]

/-- Witness for the amended C1 at a concrete environment. -/
theorem dagstoreReinit_offered_iff_witness :
    (⟨5, 6⟩ : Deal) ∈ (DagstoreReinitBoostDeals ⟨true, [⟨5, 6⟩], false, false, true⟩
      (fun _ => true)).offered :=
  (dagstoreReinit_offered_iff ⟨true, [⟨5, 6⟩], false, false, true⟩ (fun _ => true)
    ⟨5, 6⟩ rfl rfl).mpr (by constructor <;> decide)

/-! ## Claim C2 -/

/-- C2: with the migration marker present, DagstoreReinitBoostDeals
returns `(migrated := false)` with no error, offers no shard and writes no
marker; with the marker absent (context not cancelled, marker write
succeeding), after the registration acknowledgements are consumed it
returns `(migrated := true)` with no error and writes the marker, for
every per-deal registration outcome `regOk` — failed registrations do not
prevent the marker write. -/
theorem dagstoreReinit_marker_contract (env : ReinitEnv) (regOk : Deal → Bool) :
    (env.markerPresent = true → env.listActiveOk = true →
      DagstoreReinitBoostDeals env regOk = ⟨false, false, [], 0, false⟩)
    ∧ (env.markerPresent = false → env.listActiveOk = true → env.ctxCancelled = false →
        env.markerWriteOk = true →
        (DagstoreReinitBoostDeals env regOk).migrated = true
        ∧ (DagstoreReinitBoostDeals env regOk).markerWritten = true
        ∧ (DagstoreReinitBoostDeals env regOk).failed = false) := by
  constructor
  · intro hm hl
    simp [DagstoreReinitBoostDeals, hm, hl]
  · intro hm hl hc hw
    simp [DagstoreReinitBoostDeals, hm, hl, hc, hw]

/-- Witness for C2: a marker-present run is a no-op, and a marker-absent
run on which every shard registration fails still migrates and writes the
marker. -/
theorem dagstoreReinit_marker_contract_witness :
    DagstoreReinitBoostDeals ⟨true, [⟨1, 6⟩], true, false, true⟩ (fun _ => false)
      = ⟨false, false, [], 0, false⟩
    ∧ (DagstoreReinitBoostDeals ⟨true, [⟨1, 5⟩], false, false, true⟩ (fun _ => false)).migrated
        = true
    ∧ (DagstoreReinitBoostDeals ⟨true, [⟨1, 5⟩], false, false, true⟩
        (fun _ => false)).markerWritten = true :=
  ⟨(dagstoreReinit_marker_contract ⟨true, [⟨1, 6⟩], true, false, true⟩ (fun _ => false)).1
      rfl rfl,
   ((dagstoreReinit_marker_contract ⟨true, [⟨1, 5⟩], false, false, true⟩ (fun _ => false)).2
      rfl rfl rfl rfl).1,
   ((dagstoreReinit_marker_contract ⟨true, [⟨1, 5⟩], false, false, true⟩ (fun _ => false)).2
      rfl rfl rfl rfl).2.1⟩

/-! ## Claim C9 -/

/-- C9: with the index provider configured disabled, AnnounceBoostDeal,
IndexerAnnounceAllDeals and AnnounceExtendedProviders each fail with the
disabled-kind error and perform no side effects: no mesh connection, no
NotifyPut, no GetLatestAdv, no Publish (the effect lists are empty), and
the store is never touched (none of the three operations takes or produces
a store). -/
theorem disabled_no_side_effects (env : AnnounceEnv) (d : AnnDeal) (listOk : Bool)
    (deals : List AnnDeal) (hdis : env.enabled = false) :
    (∃ e, AnnounceBoostDeal env d = (.error e, []) ∧ isDisabledErr e = true)
    ∧ (∃ e, (IndexerAnnounceAllDeals env listOk deals).err = some e ∧ isDisabledErr e = true)
    ∧ (IndexerAnnounceAllDeals env listOk deals).effects = []
    ∧ (IndexerAnnounceAllDeals env listOk deals).merr = []
    ∧ (IndexerAnnounceAllDeals env listOk deals).nSuccess = 0
    ∧ (∃ e, (AnnounceExtendedProviders env).1 = some e ∧ isDisabledErr e = true)
    ∧ (AnnounceExtendedProviders env).2 = [] := by
  refine ⟨⟨.errNew "cannot announce deal: index provider is disabled", ?_, by decide⟩,
    ⟨.errNew "cannot announce all deals: index provider is disabled", ?_, by decide⟩,
    ?_, ?_, ?_,
    ⟨.errNew "cannot announce all deals: index provider is disabled", ?_, by decide⟩, ?_⟩ <;>
    simp [AnnounceBoostDeal, IndexerAnnounceAllDeals, AnnounceExtendedProviders, hdis]

/-- Witness for C9 at a concrete disabled environment. -/
theorem disabled_no_side_effects_witness :
    (AnnounceBoostDeal ⟨false, true, true, fun _ => Except.ok 0, true, true, true⟩
      ⟨some 1, 5⟩).2 = []
    ∧ (AnnounceExtendedProviders ⟨false, true, true, fun _ => Except.ok 0, true, true, true⟩).2
      = [] := by
  obtain ⟨⟨e1, h1, _⟩, _, _, _, _, _, hx⟩ :=
    disabled_no_side_effects ⟨false, true, true, fun _ => Except.ok 0, true, true, true⟩
      ⟨some 1, 5⟩ true [] rfl
  exact ⟨by rw [h1], hx⟩

/-! ## Claim C5 -/

/-- C5 counterexample: for a piece whose metadata already carries a
non-empty error, MarkIndexErrored(P, e₁) does not store e₁ — the
pre-existing error wins (db.go:302-305) — so after
`MarkIndexErrored(P, e₁); MarkIndexErrored(P, e₂)` the stored error is the
pre-existing one, not e₁ as the claim states for every piece with existing
metadata. -/
theorem markIndexErrored_prior_error_wins :
    (alGet (MarkIndexErrored
        (MarkIndexErrored ⟨[(1, ⟨100, "previous", "t"⟩)], [], [], []⟩ 1 "e1" "T1").2
        1 "e2" "T2").2.metadata 1).map (·.error)
      = some "previous" ∧ ("previous" : String) ≠ "e1" := by
  constructor
  · rfl
  · decide

/-- C5 amended: MarkIndexErrored is write-once for every piece whose
existing metadata has an empty error field and every non-empty first error
e₁: after `MarkIndexErrored(P, e₁); MarkIndexErrored(P, e₂)` the stored
error equals e₁ and the second call returns without changing the store. -/
theorem markIndexErrored_write_once (db : DB) (p : PieceCid) (md : LeveldbMetadata)
    (e1 t1 e2 t2 : String) (hmd : alGet db.metadata p = some md) (hempty : md.error = "")
    (he1 : e1 ≠ "") :
    MarkIndexErrored (MarkIndexErrored db p e1 t1).2 p e2 t2
      = (none, (MarkIndexErrored db p e1 t1).2)
    ∧ (alGet (MarkIndexErrored db p e1 t1).2.metadata p).map (·.error) = some e1 := by
  have h1 : (MarkIndexErrored db p e1 t1).2
      = SetPieceCidToMetadata db p { md with «error» := e1, errorType := t1 } := by
    simp [MarkIndexErrored, hmd, hempty]
  have h2 : alGet (MarkIndexErrored db p e1 t1).2.metadata p
      = some { md with «error» := e1, errorType := t1 } := by
    rw [h1]
    simp [SetPieceCidToMetadata, alGet_alPut_same]
  constructor
  · generalize (MarkIndexErrored db p e1 t1).2 = db1 at h2 ⊢
    simp [MarkIndexErrored, h2, he1]
  · rw [h2]
    rfl

/-- Witness for the amended C5 at a concrete store. -/
theorem markIndexErrored_write_once_witness :
    (alGet (MarkIndexErrored ⟨[(1, ⟨100, "", ""⟩)], [], [], []⟩ 1 "boom" "T").2.metadata
      1).map (·.error) = some "boom" :=
  (markIndexErrored_write_once ⟨[(1, ⟨100, "", ""⟩)], [], [], []⟩ 1 ⟨100, "", ""⟩
    "boom" "T" "later" "T2" rfl rfl (by decide)).2

/-! ## Claim C4 -/

/-- C4: RemovePieceMetadata first runs RemoveIndexes with the cursor from
P's metadata and only then deletes the metadata key — on success the
resulting store is exactly the RemoveIndexes result with P's metadata
deleted afterwards; when the RemoveIndexes batch commit fails, the error
is returned and the whole store, P's metadata entry included, is
unchanged, so the caller may retry. -/
theorem removePieceMetadata_order_and_retry (db : DB) (p : PieceCid) (md : LeveldbMetadata)
    (hmd : alGet db.metadata p = some md) :
    RemovePieceMetadata db p false = (some .backend, db)
    ∧ alGet (RemovePieceMetadata db p false).2.metadata p = some md
    ∧ RemovePieceMetadata db p true
        = (none, { (RemoveIndexes db md.cursor p true).2 with
            metadata := alDel (RemoveIndexes db md.cursor p true).2.metadata p }) := by
  refine ⟨?_, ?_, ?_⟩ <;> simp [RemovePieceMetadata, RemoveIndexes, hmd]

/-- Witness for C4 at a concrete store with one indexed piece. -/
theorem removePieceMetadata_order_and_retry_witness :
    RemovePieceMetadata ⟨[(1, ⟨100, "", ""⟩)], [(9, [1])], [], [((100, 9), [0, 4])]⟩ 1 false
      = (some .backend, ⟨[(1, ⟨100, "", ""⟩)], [(9, [1])], [], [((100, 9), [0, 4])]⟩) :=
  (removePieceMetadata_order_and_retry
    ⟨[(1, ⟨100, "", ""⟩)], [(9, [1])], [], [((100, 9), [0, 4])]⟩ 1 ⟨100, "", ""⟩ rfl).1

/-! ## Claim C8 -/

/-- Accumulation loop of IndexerAnnounceAllDeals builds an empty
multierror when every failing announce of an eligible deal is the
ErrAlreadyAdvertised sentinel (possibly wrapped, as `errors.Is`
unwraps). -/
theorem announceAllLoop_merr_nil (env : AnnounceEnv) (deals : List AnnDeal)
    (h : ∀ d ∈ deals, IndexedAndAnnounced ≤ d.checkpoint → d.checkpoint < Complete →
      ∀ e effs, AnnounceBoostDeal env d = (.error e, effs) →
        errIs e .errAlreadyAdvertised = true) :
    (announceAllLoop env deals).1 = [] := by
  induction deals with
  | nil => rfl
  | cons d rest ih =>
    have hrest : (announceAllLoop env rest).1 = [] :=
      ih fun d' hd' => h d' (List.mem_cons_of_mem _ hd')
    rw [announceAllLoop]
    by_cases hskip : d.checkpoint < IndexedAndAnnounced ∨ Complete ≤ d.checkpoint
    · simp only [if_pos hskip]
      exact hrest
    · simp only [if_neg hskip]
      push_neg at hskip
      match hab : AnnounceBoostDeal env d with
      | (.error e, effs) =>
        have := h d (List.mem_cons_self d rest) hskip.1 (by omega) e effs hab
        simp [this, hrest]
      | (.ok c, effs) =>
        simpa using hrest

/-- C8: when every per-deal failure of a bulk announce pass over eligible
deals is the ErrAlreadyAdvertised sentinel (as seen through `errors.Is`,
which unwraps the `%w` wrapping AnnounceBoostDeal applies), none is added
to the aggregated multierror and IndexerAnnounceAllDeals returns no
error. -/
theorem indexerAnnounceAllDeals_swallows_already_advertised (env : AnnounceEnv)
    (deals : List AnnDeal) (henv : env.enabled = true)
    (h : ∀ d ∈ deals, IndexedAndAnnounced ≤ d.checkpoint → d.checkpoint < Complete →
      ∀ e effs, AnnounceBoostDeal env d = (.error e, effs) →
        errIs e .errAlreadyAdvertised = true) :
    (IndexerAnnounceAllDeals env true deals).err = none
    ∧ (IndexerAnnounceAllDeals env true deals).merr = [] := by
  refine ⟨by simp [IndexerAnnounceAllDeals, henv], ?_⟩
  simp only [IndexerAnnounceAllDeals, henv]
  simpa using announceAllLoop_merr_nil env deals h

/-- Witness for C8: a provider engine that answers every NotifyPut with
ErrAlreadyAdvertised yields an error-free bulk pass over one eligible
deal. -/
theorem indexerAnnounceAllDeals_swallows_already_advertised_witness :
    (IndexerAnnounceAllDeals
        ⟨true, false, false, fun _ => .error .errAlreadyAdvertised, true, true, true⟩
        true [⟨some 1, 5⟩]).err = none
    ∧ (IndexerAnnounceAllDeals
        ⟨true, false, false, fun _ => .error .errAlreadyAdvertised, true, true, true⟩
        true [⟨some 1, 5⟩]).merr = [] := by
  apply indexerAnnounceAllDeals_swallows_already_advertised _ _ rfl
  intro d hd h1 h2 e effs he
  have hd' : d = ⟨some 1, 5⟩ := by simpa using hd
  subst hd'
  have hcomp : AnnounceBoostDeal
      ⟨true, false, false, fun _ => .error .errAlreadyAdvertised, true, true, true⟩
      ⟨some 1, 5⟩
      = (.error (.wrap "failed to announce deal to index provider" .errAlreadyAdvertised),
          [.meshConnect, .notifyPut 1]) := rfl
  rw [hcomp, Prod.mk.injEq] at he
  obtain ⟨he1, -⟩ := he
  injection he1 with hw
  subst hw
  rfl

/-! ## Claim C6 -/

theorem alGet_foldl_alPut_notmem {κ ν : Type} [DecidableEq κ]
    (batch : List (κ × ν)) :
    ∀ (m0 : List (κ × ν)) (k : κ), (∀ e ∈ batch, e.1 ≠ k) →
      alGet (batch.foldl (fun m kv => alPut m kv.1 kv.2) m0) k = alGet m0 k := by
  induction batch with
  | nil => intro m0 k _; rfl
  | cons e t ih =>
    intro m0 k h
    rw [List.foldl_cons]
    rw [ih _ k fun e' he' => h e' (List.mem_cons_of_mem _ he')]
    exact alGet_alPut_ne m0 e.2 (h e (List.mem_cons_self e t))

theorem alGet_foldl_alPut_uniq {κ ν : Type} [DecidableEq κ]
    (batch : List (κ × ν)) :
    ∀ (m0 : List (κ × ν)) (k : κ) (v : ν), (k, v) ∈ batch →
      (∀ e ∈ batch, e.1 = k → e.2 = v) →
      alGet (batch.foldl (fun m kv => alPut m kv.1 kv.2) m0) k = some v := by
  induction batch with
  | nil => intro m0 k v hmem _; cases hmem
  | cons e t ih =>
    intro m0 k v hmem huniq
    rw [List.foldl_cons]
    by_cases ht : ∃ e' ∈ t, e'.1 = k
    · obtain ⟨e', he', hk⟩ := ht
      have hv' : e'.2 = v := huniq e' (List.mem_cons_of_mem _ he') hk
      have hmem' : (k, v) ∈ t := by
        have he : e' = (k, v) := Prod.ext hk hv'
        rwa [he] at he'
      exact ih _ k v hmem' fun e'' he'' => huniq e'' (List.mem_cons_of_mem _ he'')
    · push_neg at ht
      rcases List.mem_cons.mp hmem with hek | hkt
      · rw [alGet_foldl_alPut_notmem t _ k ht, ← hek]
        exact alGet_alPut_same m0 k v
      · exact absurd rfl (ht _ hkt)

theorem setMhBatch_key_mem (db : DB) (p : PieceCid) (recs : List Record) :
    ∀ e ∈ setMhBatch db p recs, e.1 ∈ recs.map (·.cid) ∧ e.2 = mhNewVal db p e.1 := by
  induction recs with
  | nil => intro e he; cases he
  | cons r rs ih =>
    intro e he
    have step : e ∈ setMhBatch db p rs →
        e.1 ∈ (r :: rs).map (·.cid) ∧ e.2 = mhNewVal db p e.1 := by
      intro h'
      obtain ⟨h1, h2⟩ := ih e h'
      exact ⟨List.mem_cons_of_mem _ h1, h2⟩
    match hv : alGet db.mhToPieces r.cid with
    | none =>
      simp only [setMhBatch, hv] at he
      rcases List.mem_cons.mp he with rfl | h'
      · exact ⟨by simp, by simp [mhNewVal, hv]⟩
      · exact step h'
    | some pcids =>
      by_cases hp : p ∈ pcids
      · simp only [setMhBatch, hv, hp, if_true] at he
        exact step he
      · simp only [setMhBatch, hv, hp, if_false] at he
        rcases List.mem_cons.mp he with rfl | h'
        · exact ⟨by simp, by simp [mhNewVal, hv, hp]⟩
        · exact step h'

theorem setMhBatch_covers (db : DB) (p : PieceCid) (recs : List Record) (m : Mh)
    (hm : m ∈ recs.map (·.cid))
    (hneed : ∀ l, alGet db.mhToPieces m = some l → p ∉ l) :
    (m, mhNewVal db p m) ∈ setMhBatch db p recs := by
  induction recs with
  | nil => cases hm
  | cons r rs ih =>
    rcases List.mem_cons.mp hm with hr | hm'
    · simp only at hr
      subst hr
      match hv : alGet db.mhToPieces r.cid with
      | none =>
        simp only [setMhBatch, hv]
        have h1 : mhNewVal db p r.cid = [p] := by simp [mhNewVal, hv]
        rw [h1]
        exact List.mem_cons_self _ _
      | some pcids =>
        have hp : p ∉ pcids := hneed pcids hv
        simp only [setMhBatch, hv, hp, if_false]
        have h1 : mhNewVal db p r.cid = pcids ++ [p] := by simp [mhNewVal, hv, hp]
        rw [h1]
        exact List.mem_cons_self _ _
    · have htail := ih hm'
      match hv : alGet db.mhToPieces r.cid with
      | none =>
        simp only [setMhBatch, hv]
        exact List.mem_cons_of_mem _ htail
      | some pcids =>
        by_cases hp : p ∈ pcids
        · simp only [setMhBatch, hv, hp, if_true]
          exact htail
        · simp only [setMhBatch, hv, hp, if_false]
          exact List.mem_cons_of_mem _ htail

theorem setMhBatch_skips_present (db : DB) (p : PieceCid) (recs : List Record) (m : Mh)
    (l : List PieceCid) (hv : alGet db.mhToPieces m = some l) (hp : p ∈ l) :
    ∀ e ∈ setMhBatch db p recs, e.1 ≠ m := by
  induction recs with
  | nil => intro e he; cases he
  | cons r rs ih =>
    intro e he
    by_cases hr : r.cid = m
    · rw [show setMhBatch db p (r :: rs)
          = setMhBatch db p rs from by simp only [setMhBatch, hr, hv, hp, if_true]] at he
      exact ih e he
    · match hv' : alGet db.mhToPieces r.cid with
      | none =>
        simp only [setMhBatch, hv'] at he
        rcases List.mem_cons.mp he with rfl | h'
        · exact hr
        · exact ih e h'
      | some pcids' =>
        by_cases hp' : p ∈ pcids'
        · simp only [setMhBatch, hv', hp', if_true] at he
          exact ih e he
        · simp only [setMhBatch, hv', hp', if_false] at he
          rcases List.mem_cons.mp he with rfl | h'
          · exact hr
          · exact ih e h'

/-- Final inversion set per multihash after SetMultihashesToPieceCid: a
multihash of some record carries `mhNewVal`, every other key is
untouched. -/
theorem alGet_setMultihashes (db : DB) (recs : List Record) (p : PieceCid) (m : Mh) :
    alGet (SetMultihashesToPieceCid db recs p).mhToPieces m
      = if m ∈ recs.map (·.cid) then some (mhNewVal db p m)
        else alGet db.mhToPieces m := by
  by_cases hm : m ∈ recs.map (·.cid)
  · rw [if_pos hm]
    by_cases hpres : ∃ l, alGet db.mhToPieces m = some l ∧ p ∈ l
    · obtain ⟨l, hv, hp⟩ := hpres
      have hnone := setMhBatch_skips_present db p recs m l hv hp
      show alGet ((setMhBatch db p recs).foldl (fun s kv => alPut s kv.1 kv.2) db.mhToPieces) m
          = some (mhNewVal db p m)
      rw [alGet_foldl_alPut_notmem _ _ _ hnone, hv]
      simp [mhNewVal, hv, hp]
    · push_neg at hpres
      have hcov := setMhBatch_covers db p recs m hm hpres
      show alGet ((setMhBatch db p recs).foldl (fun s kv => alPut s kv.1 kv.2) db.mhToPieces) m
          = some (mhNewVal db p m)
      exact alGet_foldl_alPut_uniq _ _ m (mhNewVal db p m) hcov
        fun e he h1 => by
          obtain ⟨-, h2⟩ := setMhBatch_key_mem db p recs e he
          rw [h2, h1]
  · rw [if_neg hm]
    show alGet ((setMhBatch db p recs).foldl (fun s kv => alPut s kv.1 kv.2) db.mhToPieces) m
        = alGet db.mhToPieces m
    exact alGet_foldl_alPut_notmem _ _ _ fun e he hk =>
      hm (hk ▸ (setMhBatch_key_mem db p recs e he).1)

theorem mem_mhNewVal (db : DB) (p : PieceCid) (m : Mh) : p ∈ mhNewVal db p m := by
  match hv : alGet db.mhToPieces m with
  | none => simp [mhNewVal, hv]
  | some l =>
    by_cases hp : p ∈ l
    · simp [mhNewVal, hv, hp]
    · simp [mhNewVal, hv, hp]

theorem setMhBatch_nil_of_present (db' : DB) (p : PieceCid) :
    ∀ (rs : List Record), (∀ r ∈ rs, ∃ l, alGet db'.mhToPieces r.cid = some l ∧ p ∈ l) →
      setMhBatch db' p rs = [] := by
  intro rs
  induction rs with
  | nil => intro _; rfl
  | cons r t ih =>
    intro h
    obtain ⟨l, hv, hp⟩ := h r (List.mem_cons_self r t)
    simp only [setMhBatch, hv, hp, if_true]
    exact ih fun r' hr' => h r' (List.mem_cons_of_mem _ hr')

/-- C6: after SetMultihashesToPieceCid(recs, P), GetPieceCidsByMultihash
of every record's multihash returns a list containing P; on a store whose
inversion sets are duplicate-free (as is every store this operation itself
produces), the sets stay duplicate-free; and repeating the operation with
the same arguments leaves every inversion set — indeed the whole store —
unchanged. -/
theorem setMultihashes_roundtrip (db : DB) (recs : List Record) (p : PieceCid)
    (hnodup : ∀ m l, alGet db.mhToPieces m = some l → l.Nodup) :
    (∀ r ∈ recs, ∃ l, GetPieceCidsByMultihash (SetMultihashesToPieceCid db recs p) r.cid
        = .ok l ∧ p ∈ l)
    ∧ (∀ m l, alGet (SetMultihashesToPieceCid db recs p).mhToPieces m = some l → l.Nodup)
    ∧ SetMultihashesToPieceCid (SetMultihashesToPieceCid db recs p) recs p
        = SetMultihashesToPieceCid db recs p := by
  refine ⟨?_, ?_, ?_⟩
  · intro r hr
    have hm : r.cid ∈ recs.map (·.cid) := List.mem_map_of_mem _ hr
    refine ⟨mhNewVal db p r.cid, ?_, mem_mhNewVal db p r.cid⟩
    have h1 : alGet (SetMultihashesToPieceCid db recs p).mhToPieces r.cid
        = some (mhNewVal db p r.cid) := by
      rw [alGet_setMultihashes, if_pos hm]
    simp only [GetPieceCidsByMultihash, h1]
  · intro m l hl
    rw [alGet_setMultihashes] at hl
    by_cases hm : m ∈ recs.map (·.cid)
    · rw [if_pos hm] at hl
      injection hl with hl
      subst hl
      match hv : alGet db.mhToPieces m with
      | none => simp [mhNewVal, hv]
      | some l0 =>
        have hnd0 := hnodup m l0 hv
        by_cases hp : p ∈ l0
        · simp [mhNewVal, hv, hp, hnd0]
        · simp only [mhNewVal, hv, hp, if_false]
          rw [List.nodup_append]
          exact ⟨hnd0, List.nodup_singleton p, by simpa using hp⟩
    · rw [if_neg hm] at hl
      exact hnodup m l hl
  · have hbatch : setMhBatch (SetMultihashesToPieceCid db recs p) p recs = [] := by
      apply setMhBatch_nil_of_present
      intro r hr
      have hm : r.cid ∈ recs.map (·.cid) := List.mem_map_of_mem _ hr
      refine ⟨mhNewVal db p r.cid, ?_, mem_mhNewVal db p r.cid⟩
      rw [alGet_setMultihashes, if_pos hm]
    generalize hdb' : SetMultihashesToPieceCid db recs p = db' at hbatch ⊢
    show SetMultihashesToPieceCid db' recs p = db'
    unfold SetMultihashesToPieceCid
    rw [hbatch]
    rfl

/-- Witness for C6 at a concrete store already holding an inversion set
for the record's multihash. -/
theorem setMultihashes_roundtrip_witness :
    ∃ l, GetPieceCidsByMultihash
        (SetMultihashesToPieceCid ⟨[], [(9, [2])], [], []⟩ [⟨9, 0, 0⟩] 1) 9 = .ok l
      ∧ 1 ∈ l := by
  have h := setMultihashes_roundtrip ⟨[], [(9, [2])], [], []⟩ [⟨9, 0, 0⟩] 1 ?hn
  · exact h.1 ⟨9, 0, 0⟩ (List.mem_singleton_self _)
  case hn =>
    intro m l hml
    simp only [alGet] at hml
    by_cases hm : (9 : Nat) = m
    · rw [if_pos hm] at hml
      injection hml with hml
      subst hml
      decide
    · rw [if_neg hm] at hml
      cases hml

/-! ## Claim C3: the swap-remove loop -/

theorem removePcidAux_no_match (p : PieceCid) (n : Nat) :
    ∀ (fuel i lv : Nat) (backing : List PieceCid), n - i ≤ fuel →
      (∀ k, i ≤ k → k < n → backing.getD k 0 ≠ p) →
      removePcidAux p backing lv i n = (backing, lv) := by
  intro fuel
  induction fuel with
  | zero =>
    intro i lv backing hf _
    rw [removePcidAux, if_neg (by omega)]
  | succ f ih =>
    intro i lv backing hf h
    rw [removePcidAux]
    by_cases hin : i < n
    · rw [if_pos hin, if_neg (h i le_rfl hin)]
      exact ih (i + 1) lv backing (by omega) fun k hk1 hk2 => h k (by omega) hk2
    · rw [if_neg hin]

theorem removePcidAux_walk (p : PieceCid) (n : Nat) :
    ∀ (fuel i j lv : Nat) (backing : List PieceCid), j - i ≤ fuel → i ≤ j →
      (∀ k, i ≤ k → k < j → backing.getD k 0 ≠ p) →
      removePcidAux p backing lv i n = removePcidAux p backing lv j n := by
  intro fuel
  induction fuel with
  | zero =>
    intro i j lv backing hf hij _
    have h0 : i = j := by omega
    rw [h0]
  | succ f ih =>
    intro i j lv backing hf hij h
    by_cases heq : i = j
    · rw [heq]
    · have hiltj : i < j := by omega
      by_cases hin : i < n
      · conv_lhs => rw [removePcidAux]
        rw [if_pos hin, if_neg (h i le_rfl hiltj)]
        exact ih (i + 1) j lv backing (by omega) (by omega) fun k hk1 hk2 => h k (by omega) hk2
      · conv_lhs => rw [removePcidAux]
        rw [if_neg hin]
        rw [removePcidAux, if_neg (by omega)]

theorem not_mem_removePcid (l : List PieceCid) (p : PieceCid) (hnd : l.Nodup) :
    p ∉ removePcid l p := by
  by_cases hp : p ∈ l
  · obtain ⟨j, hj, hjp⟩ := List.mem_iff_getElem.mp hp
    have huniq : ∀ (k : Nat) (hk : k < l.length), l[k] = p → k = j := fun k hk hkp =>
      (List.Nodup.getElem_inj_iff hnd).mp (hkp.trans hjp.symm)
    unfold removePcid
    rw [removePcidAux_walk p l.length j 0 j l.length l (by omega) (Nat.zero_le j) ?early]
    case early =>
      intro k _ hkj
      have hkn : k < l.length := by omega
      rw [List.getD_eq_getElem l 0 hkn]
      intro hkp
      exact absurd (huniq k hkn hkp) (by omega)
    rw [removePcidAux, if_pos hj]
    have hgd : l.getD j 0 = p := by rw [List.getD_eq_getElem l 0 hj]; exact hjp
    rw [if_pos hgd]
    have hset : ∀ k, j + 1 ≤ k → k < l.length →
        (l.set j (l.getD (l.length - 1) 0)).getD k 0 ≠ p := by
      intro k hk1 hk2
      have hkn : k < (l.set j (l.getD (l.length - 1) 0)).length := by
        rw [List.length_set]; omega
      rw [List.getD_eq_getElem _ 0 hkn, List.getElem_set_ne (by omega)]
      intro hkp
      exact absurd (huniq k hk2 hkp) (by omega)
    rw [removePcidAux_no_match p l.length (l.length - (j + 1)) (j + 1) (l.length - 1)
      (l.set j (l.getD (l.length - 1) 0)) (by omega) hset]
    intro hmem'
    obtain ⟨k, hk, hkp⟩ := List.mem_iff_getElem.mp hmem'
    have hklen : k < l.length - 1 := by
      rw [List.length_take, List.length_set] at hk
      omega
    rw [List.getElem_take] at hkp
    by_cases hkj : k = j
    · subst hkj
      rw [List.getElem_set_self (by rw [List.length_set]; omega)] at hkp
      have hlast : l.length - 1 < l.length := by omega
      rw [List.getD_eq_getElem l 0 hlast] at hkp
      have hjj := huniq (l.length - 1) hlast hkp
      omega
    · rw [List.getElem_set_ne (fun h => hkj h.symm)] at hkp
      exact absurd (huniq k (by omega) hkp) hkj
  · unfold removePcid
    rw [removePcidAux_no_match p l.length l.length 0 l.length l (by omega) ?hno]
    case hno =>
      intro k _ hk
      rw [List.getD_eq_getElem l 0 hk]
      intro hkp
      exact hp (hkp ▸ List.getElem_mem hk)
    rwa [List.take_length]

/-! ## Claim C3: batch application -/

theorem foldl_applyOp_metadata (ops : List BatchOp) :
    ∀ s : DB, (ops.foldl applyOp s).metadata = s.metadata := by
  induction ops with
  | nil => intro s; rfl
  | cons op t ih =>
    intro s
    rw [List.foldl_cons, ih]
    cases op <;> rfl

theorem foldl_applyOp_flagged (ops : List BatchOp) :
    ∀ s : DB, (ops.foldl applyOp s).flagged = s.flagged := by
  induction ops with
  | nil => intro s; rfl
  | cons op t ih =>
    intro s
    rw [List.foldl_cons, ih]
    cases op <;> rfl

theorem foldl_applyOp_indexRecs_none (ops : List BatchOp) :
    ∀ (s : DB) (k : Nat × Mh), alGet s.indexRecs k = none →
      alGet (ops.foldl applyOp s).indexRecs k = none := by
  induction ops with
  | nil => intro s k h; exact h
  | cons op t ih =>
    intro s k h
    rw [List.foldl_cons]
    apply ih
    cases op with
    | putMh m v => exact h
    | delMh m => exact h
    | delRec k' =>
      show alGet (alDel s.indexRecs k') k = none
      by_cases hk : k' = k
      · subst hk
        exact alGet_alDel_same _ _
      · rw [alGet_alDel_ne _ hk]
        exact h

theorem foldl_applyOp_indexRecs_del (ops : List BatchOp) :
    ∀ (s : DB) (k : Nat × Mh), BatchOp.delRec k ∈ ops →
      alGet (ops.foldl applyOp s).indexRecs k = none := by
  induction ops with
  | nil => intro s k h; cases h
  | cons op t ih =>
    intro s k h
    rw [List.foldl_cons]
    rcases List.mem_cons.mp h with heq | ht
    · apply foldl_applyOp_indexRecs_none
      rw [← heq]
      exact alGet_alDel_same _ _
    · exact ih _ k ht

theorem lastMhOp_mem (m : Mh) :
    ∀ (ops : List BatchOp) (op : BatchOp), lastMhOp ops m = some op →
      op ∈ ops ∧ opTargets op m = true := by
  intro ops
  induction ops with
  | nil => intro op h; cases h
  | cons hd t ih =>
    intro op h
    rw [lastMhOp] at h
    match hlast : lastMhOp t m with
    | some o =>
      rw [hlast] at h
      injection h with h
      subst h
      obtain ⟨h1, h2⟩ := ih o hlast
      exact ⟨List.mem_cons_of_mem _ h1, h2⟩
    | none =>
      rw [hlast] at h
      by_cases ht : opTargets hd m
      · rw [if_pos ht] at h
        injection h with h
        subst h
        exact ⟨List.mem_cons_self _ _, ht⟩
      · rw [if_neg ht] at h
        cases h

theorem foldl_applyOp_mhToPieces (ops : List BatchOp) :
    ∀ (s : DB) (m : Mh),
      alGet (ops.foldl applyOp s).mhToPieces m
        = match lastMhOp ops m with
          | some (.putMh _ v) => some v
          | some (.delMh _) => none
          | some (.delRec _) => alGet s.mhToPieces m
          | none => alGet s.mhToPieces m := by
  induction ops with
  | nil => intro s m; rfl
  | cons op t ih =>
    intro s m
    rw [List.foldl_cons, ih, lastMhOp]
    match hlast : lastMhOp t m with
    | some o =>
      cases o with
      | putMh m' v => rfl
      | delMh m' => rfl
      | delRec k =>
        have := (lastMhOp_mem m t _ hlast).2
        simp [opTargets] at this
    | none =>
      by_cases htarget : opTargets op m
      · rw [if_pos htarget]
        cases op with
        | putMh m' v =>
          have hm : m' = m := by simpa [opTargets] using htarget
          subst hm
          exact alGet_alPut_same _ _ _
        | delMh m' =>
          have hm : m' = m := by simpa [opTargets] using htarget
          subst hm
          exact alGet_alDel_same _ _
        | delRec k => simp [opTargets] at htarget
      · rw [if_neg htarget]
        cases op with
        | putMh m' v =>
          have hm : m' ≠ m := by simpa [opTargets] using htarget
          exact alGet_alPut_ne _ _ hm
        | delMh m' =>
          have hm : m' ≠ m := by simpa [opTargets] using htarget
          exact alGet_alDel_ne _ hm
        | delRec k => rfl

theorem lastMhOp_eq_none (m : Mh) :
    ∀ ops : List BatchOp, (∀ op ∈ ops, opTargets op m = false) →
      lastMhOp ops m = none := by
  intro ops
  induction ops with
  | nil => intro _; rfl
  | cons op t ih =>
    intro h
    rw [lastMhOp, ih fun op' hop' => h op' (List.mem_cons_of_mem _ hop')]
    rw [if_neg (by simp [h op (List.mem_cons_self op t)])]

theorem lastMhOp_none_not_target (m : Mh) :
    ∀ (ops : List BatchOp) (op : BatchOp), lastMhOp ops m = none → op ∈ ops →
      opTargets op m = false := by
  intro ops
  induction ops with
  | nil => intro op _ hop; cases hop
  | cons hd t ih =>
    intro op h hop
    rw [lastMhOp] at h
    match hlast : lastMhOp t m with
    | some o => rw [hlast] at h; cases h
    | none =>
      rw [hlast] at h
      rcases List.mem_cons.mp hop with rfl | hmem
      · by_cases ht : opTargets op m
        · rw [if_pos ht] at h; cases h
        · simpa using ht
      · exact ih op hlast hmem

/-! ## Claim C3: the RemoveIndexes batch -/

theorem mhOpFor_target (db : DB) (p : PieceCid) (m' : Mh) (op : BatchOp)
    (h : mhOpFor db p m' = some op) :
    opTargets op m' = true ∧ ∀ m, opTargets op m = true → m' = m := by
  unfold mhOpFor at h
  match hv : alGet db.mhToPieces m' with
  | none =>
    simp only [hv] at h
    cases h
  | some pcids =>
    simp only [hv] at h
    by_cases hp : p ∈ pcids
    · rw [if_pos hp] at h
      injection h with h
      subst h
      by_cases hlen : pcids.length ≤ 1
      · rw [if_pos hlen]
        exact ⟨by simp [opTargets], fun m hm => by simpa [opTargets, hlen] using hm⟩
      · rw [if_neg hlen]
        exact ⟨by simp [opTargets], fun m hm => by simpa [opTargets, hlen] using hm⟩
    · rw [if_neg hp] at h
      cases h

theorem riOps_target_eq (db : DB) (p : PieceCid) (keys : List (Nat × Mh)) (m : Mh) :
    ∀ op ∈ riOps db p keys, opTargets op m = true → mhOpFor db p m = some op := by
  intro op hop htarget
  rw [riOps, List.mem_flatMap] at hop
  obtain ⟨k, hk, hmem⟩ := hop
  rcases List.mem_append.mp hmem with hin | hdel
  · have hop' : mhOpFor db p k.2 = some op := by
      match hmho : mhOpFor db p k.2 with
      | none => rw [hmho] at hin; cases hin
      | some o =>
        rw [hmho] at hin
        have : op = o := by simpa using hin
        rw [this]
    obtain ⟨-, huniq⟩ := mhOpFor_target db p k.2 op hop'
    rw [← huniq m htarget]
    exact hop'
  · have : op = BatchOp.delRec k := by simpa using hdel
    rw [this] at htarget
    simp [opTargets] at htarget

theorem riOps_delRec_mem (db : DB) (p : PieceCid) (keys : List (Nat × Mh))
    (k : Nat × Mh) (hk : k ∈ keys) : BatchOp.delRec k ∈ riOps db p keys := by
  rw [riOps, List.mem_flatMap]
  exact ⟨k, hk, List.mem_append_right _ (by simp)⟩

theorem riOps_target_exists (db : DB) (p : PieceCid) (keys : List (Nat × Mh))
    (m : Mh) (c : Nat) (hk : (c, m) ∈ keys) (op : BatchOp)
    (hmho : mhOpFor db p m = some op) :
    op ∈ riOps db p keys ∧ opTargets op m = true := by
  refine ⟨?_, (mhOpFor_target db p m op hmho).1⟩
  rw [riOps, List.mem_flatMap]
  refine ⟨(c, m), hk, List.mem_append_left _ ?_⟩
  show op ∈ (mhOpFor db p m).toList
  rw [hmho]
  simp

theorem alGet_eq_some_mem {κ ν : Type} [DecidableEq κ] :
    ∀ (l : List (κ × ν)) (k : κ) (v : ν), alGet l k = some v → (k, v) ∈ l := by
  intro l
  induction l with
  | nil => intro k v h; cases h
  | cons e t ih =>
    intro k v h
    obtain ⟨k', v'⟩ := e
    rw [alGet] at h
    by_cases hk : k' = k
    · rw [if_pos hk] at h
      injection h with h
      subst h hk
      exact List.mem_cons_self _ _
    · rw [if_neg hk] at h
      exact List.mem_cons_of_mem _ (ih k v h)

theorem mem_cursorKeys (db : DB) (c : Nat) (k : Nat × Mh) (v : List Nat)
    (hv : (k, v) ∈ db.indexRecs) (hc : k.1 = c) : k ∈ cursorKeys db c := by
  rw [cursorKeys, List.mem_map]
  exact ⟨(k, v), List.mem_filter.mpr ⟨hv, by simpa using hc⟩, rfl⟩

/-! ## Claim C3 -/

/-- C3 counterexample: for a piece that is both present in metadata and
flagged, a successful RemovePieceMetadata leaves the flagged entry in
place — RemovePieceMetadata (db.go:511-542) never touches the `\x03/`
flagged table, whose rows are only removed by the explicit
DeletePieceCidToFlagged — so a key mentioning P remains, contrary to the
claim. -/
theorem removePieceMetadata_leaves_flag :
    (RemovePieceMetadata ⟨[(1, ⟨100, "", ""⟩)], [], [(1, ⟨0⟩)], []⟩ 1 true).1 = none
    ∧ alGet (RemovePieceMetadata ⟨[(1, ⟨100, "", ""⟩)], [], [(1, ⟨0⟩)], []⟩ 1 true).2.flagged 1
        = some ⟨0⟩ := by
  constructor <;> rfl

/-- C3 amended: after a successful RemovePieceMetadata(P) on a store whose
inversion sets are duplicate-free and mention P only at multihashes
indexed under P's cursor (the shape every store reached through the store
operations has), no index record remains under P's cursor prefix, no
inversion set contains P, and P's metadata key is deleted; the flagged
table is left untouched, P's flagged entry included — flag removal is the
separate, explicit DeletePieceCidToFlagged. -/
theorem removePieceMetadata_removes_all (db : DB) (p : PieceCid) (md : LeveldbMetadata)
    (hmd : alGet db.metadata p = some md)
    (hnodup : ∀ m l, alGet db.mhToPieces m = some l → l.Nodup)
    (hwf : ∀ m l, alGet db.mhToPieces m = some l → p ∈ l →
      alGet db.indexRecs (md.cursor, m) ≠ none) :
    (RemovePieceMetadata db p true).1 = none
    ∧ (∀ m, alGet (RemovePieceMetadata db p true).2.indexRecs (md.cursor, m) = none)
    ∧ (∀ m l, alGet (RemovePieceMetadata db p true).2.mhToPieces m = some l → p ∉ l)
    ∧ alGet (RemovePieceMetadata db p true).2.metadata p = none
    ∧ (RemovePieceMetadata db p true).2.flagged = db.flagged := by
  have hrun : RemovePieceMetadata db p true
      = (none, { (riOps db p (cursorKeys db md.cursor)).foldl applyOp db with
          metadata := alDel ((riOps db p (cursorKeys db md.cursor)).foldl applyOp db).metadata p }) := by
    simp [RemovePieceMetadata, RemoveIndexes, hmd]
  rw [hrun]
  refine ⟨rfl, ?_, ?_, ?_, ?_⟩
  · intro m
    show alGet ((riOps db p (cursorKeys db md.cursor)).foldl applyOp db).indexRecs
        (md.cursor, m) = none
    match hrec : alGet db.indexRecs (md.cursor, m) with
    | none => exact foldl_applyOp_indexRecs_none _ db _ hrec
    | some v =>
      have hmemk : (md.cursor, m) ∈ cursorKeys db md.cursor :=
        mem_cursorKeys db md.cursor (md.cursor, m) v (alGet_eq_some_mem _ _ _ hrec) rfl
      exact foldl_applyOp_indexRecs_del _ db _ (riOps_delRec_mem db p _ _ hmemk)
  · intro m l hl
    have hl' : alGet ((riOps db p (cursorKeys db md.cursor)).foldl applyOp db).mhToPieces m
        = some l := hl
    rw [foldl_applyOp_mhToPieces] at hl'
    match hlast : lastMhOp (riOps db p (cursorKeys db md.cursor)) m with
    | some op =>
      obtain ⟨hopmem, hoptarget⟩ := lastMhOp_mem m _ op hlast
      have hmho : mhOpFor db p m = some op := riOps_target_eq db p _ m op hopmem hoptarget
      unfold mhOpFor at hmho
      match hv : alGet db.mhToPieces m with
      | none =>
        simp only [hv] at hmho
        cases hmho
      | some pcids =>
        simp only [hv] at hmho
        by_cases hp : p ∈ pcids
        · rw [if_pos hp] at hmho
          injection hmho with hmho
          by_cases hlen : pcids.length ≤ 1
          · rw [if_pos hlen] at hmho
            rw [hlast, ← hmho] at hl'
            simp at hl'
          · rw [if_neg hlen] at hmho
            rw [hlast, ← hmho] at hl'
            simp at hl'
            subst hl'
            exact not_mem_removePcid pcids p (hnodup m pcids hv)
        · rw [if_neg hp] at hmho
          cases hmho
    | none =>
      simp only [hlast] at hl'
      intro hpl
      have hrec := hwf m l hl' hpl
      match hrec' : alGet db.indexRecs (md.cursor, m) with
      | none => exact hrec hrec'
      | some v =>
        have hmemk : (md.cursor, m) ∈ cursorKeys db md.cursor :=
          mem_cursorKeys db md.cursor (md.cursor, m) v (alGet_eq_some_mem _ _ _ hrec') rfl
        have hmho : mhOpFor db p m = some (if l.length ≤ 1
            then BatchOp.delMh m else BatchOp.putMh m (removePcid l p)) := by
          unfold mhOpFor
          simp only [hl']
          rw [if_pos hpl]
        obtain ⟨hopmem, hoptarget⟩ := riOps_target_exists db p _ m md.cursor hmemk _ hmho
        have := lastMhOp_none_not_target m _ _ hlast hopmem
        rw [hoptarget] at this
        cases this
  · show alGet (alDel ((riOps db p (cursorKeys db md.cursor)).foldl applyOp db).metadata p)
        p = none
    exact alGet_alDel_same _ _
  · show ((riOps db p (cursorKeys db md.cursor)).foldl applyOp db).flagged = db.flagged
    exact foldl_applyOp_flagged _ db

/-- Witness for the amended C3 at a concrete store with one indexed,
well-formed piece. -/
theorem removePieceMetadata_removes_all_witness :
    (RemovePieceMetadata ⟨[(1, ⟨100, "", ""⟩)], [(9, [1])], [], [((100, 9), [0, 4])]⟩ 1 true).1
      = none
    ∧ alGet (RemovePieceMetadata ⟨[(1, ⟨100, "", ""⟩)], [(9, [1])], [], [((100, 9), [0, 4])]⟩
        1 true).2.indexRecs (100, 9) = none := by
  have h := removePieceMetadata_removes_all
    ⟨[(1, ⟨100, "", ""⟩)], [(9, [1])], [], [((100, 9), [0, 4])]⟩ 1 ⟨100, "", ""⟩ rfl ?hn ?hw
  · exact ⟨h.1, h.2.1 9⟩
  case hn =>
    intro m l hml
    simp only [alGet] at hml
    by_cases hm : (9 : Nat) = m
    · rw [if_pos hm] at hml
      injection hml with hml
      subst hml
      decide
    · rw [if_neg hm] at hml
      cases hml
  case hw =>
    intro m l hml hpl
    simp only [alGet] at hml
    by_cases hm : (9 : Nat) = m
    · subst hm
      intro hnone
      simp only [alGet] at hnone
      cases hnone
    · rw [if_neg hm] at hml
      cases hml

/-! ## Claim C10: the scan loop -/

theorem nptcLoop_stamp_stable (now : Int) :
    ∀ (window : List PieceCid) (checked : List (PieceCid × Int)) (P : PieceCid),
      alGet checked P = some now →
      alGet (nptcLoop now window checked).2.1 P = some now := by
  intro window
  induction window with
  | nil => intro checked P h; exact h
  | cons k rest ih =>
    intro checked P h
    rw [nptcLoop]
    by_cases hskip : nptcSkip now checked k = true
    · rw [if_pos hskip]
      exact ih checked P h
    · rw [if_neg hskip]
      apply ih
      by_cases hkP : k = P
      · subst hkP
        exact alGet_alPut_same _ _ _
      · rw [alGet_alPut_ne _ _ hkP]
        exact h

theorem nptcLoop_only_stale (now : Int) :
    ∀ (window : List PieceCid) (checked : List (PieceCid × Int)) (P : PieceCid) (t : Int),
      P ∈ (nptcLoop now window checked).1 → alGet checked P = some t →
      t ≤ now - minPieceCheckPeriod := by
  intro window
  induction window with
  | nil =>
    intro checked P t hP _
    exact absurd hP (List.not_mem_nil P)
  | cons k rest ih =>
    intro checked P t hP ht
    rw [nptcLoop] at hP
    by_cases hskip : nptcSkip now checked k = true
    · rw [if_pos hskip] at hP
      exact ih checked P t hP ht
    · rw [if_neg hskip] at hP
      rcases List.mem_cons.mp hP with rfl | hPrec
      · simp only [nptcSkip, ht, decide_eq_true_eq] at hskip
        omega
      · by_cases hkP : k = P
        · subst hkP
          have h2 := ih _ k now hPrec (alGet_alPut_same _ _ _)
          simp only [minPieceCheckPeriod] at h2
          omega
        · exact ih _ P t hPrec (by rw [alGet_alPut_ne _ _ hkP]; exact ht)

theorem nptcLoop_stamps (now : Int) :
    ∀ (window : List PieceCid) (checked : List (PieceCid × Int)) (P : PieceCid),
      P ∈ (nptcLoop now window checked).1 →
      alGet (nptcLoop now window checked).2.1 P = some now := by
  intro window
  induction window with
  | nil =>
    intro checked P hP
    exact absurd hP (List.not_mem_nil P)
  | cons k rest ih =>
    intro checked P hP
    rw [nptcLoop] at hP ⊢
    by_cases hskip : nptcSkip now checked k = true
    · rw [if_pos hskip] at hP ⊢
      exact ih checked P hP
    · rw [if_neg hskip] at hP ⊢
      rcases List.mem_cons.mp hP with rfl | hPrec
      · show alGet (nptcLoop now rest (alPut checked P now)).2.1 P = some now
        exact nptcLoop_stamp_stable now rest _ P (alGet_alPut_same _ _ _)
      · show alGet (nptcLoop now rest (alPut checked k now)).2.1 P = some now
        exact ih _ P hPrec

theorem nptcLoop_skip (now : Int) :
    ∀ (window : List PieceCid) (checked : List (PieceCid × Int)) (P : PieceCid) (t : Int),
      alGet checked P = some t → now - minPieceCheckPeriod < t →
      P ∉ (nptcLoop now window checked).1
      ∧ alGet (nptcLoop now window checked).2.1 P = some t := by
  intro window
  induction window with
  | nil =>
    intro checked P t ht _
    exact ⟨List.not_mem_nil P, ht⟩
  | cons k rest ih =>
    intro checked P t ht hlt
    rw [nptcLoop]
    by_cases hskip : nptcSkip now checked k = true
    · rw [if_pos hskip]
      exact ih checked P t ht hlt
    · rw [if_neg hskip]
      have hkP : k ≠ P := by
        intro h
        subst h
        simp only [nptcSkip, ht, decide_eq_true_eq] at hskip
        exact hskip hlt
      have ht' : alGet (alPut checked k now) P = some t := by
        rw [alGet_alPut_ne _ _ hkP]
        exact ht
      obtain ⟨h1, h2⟩ := ih _ P t ht' hlt
      refine ⟨?_, h2⟩
      intro hmem
      rcases List.mem_cons.mp hmem with rfl | hmem'
      · exact hkP rfl
      · exact h1 hmem'

theorem nptcLoop_evolve (now : Int) :
    ∀ (window : List PieceCid) (checked : List (PieceCid × Int)) (P : PieceCid) (t : Int),
      alGet checked P = some t →
      alGet (nptcLoop now window checked).2.1 P = some t
      ∨ alGet (nptcLoop now window checked).2.1 P = some now := by
  intro window
  induction window with
  | nil =>
    intro checked P t ht
    exact Or.inl ht
  | cons k rest ih =>
    intro checked P t ht
    rw [nptcLoop]
    by_cases hskip : nptcSkip now checked k = true
    · rw [if_pos hskip]
      exact ih checked P t ht
    · rw [if_neg hskip]
      by_cases hkP : k = P
      · subst hkP
        right
        show alGet (nptcLoop now rest (alPut checked k now)).2.1 k = some now
        exact nptcLoop_stamp_stable now rest _ k (alGet_alPut_same _ _ _)
      · exact ih _ P t (by rw [alGet_alPut_ne _ _ hkP]; exact ht)

/-! ## Claim C10: call-level facts -/

theorem nptc_stamps (db : DB) (st : DoctorState) (now : Int) (P : PieceCid)
    (h : P ∈ (NextPiecesToCheck db st now).1) :
    alGet (NextPiecesToCheck db st now).2.checked P = some now :=
  nptcLoop_stamps now _ st.checked P h

theorem nptc_skip (db : DB) (st : DoctorState) (now : Int) (P : PieceCid) (t : Int)
    (ht : alGet st.checked P = some t) (hlt : now - minPieceCheckPeriod < t) :
    P ∉ (NextPiecesToCheck db st now).1
    ∧ alGet (NextPiecesToCheck db st now).2.checked P = some t :=
  nptcLoop_skip now _ st.checked P t ht hlt

theorem nptc_evolve (db : DB) (st : DoctorState) (now : Int) (P : PieceCid) (t : Int)
    (ht : alGet st.checked P = some t) :
    alGet (NextPiecesToCheck db st now).2.checked P = some t
    ∨ alGet (NextPiecesToCheck db st now).2.checked P = some now :=
  nptcLoop_evolve now _ st.checked P t ht

theorem nptc_only_stale (db : DB) (st : DoctorState) (now : Int) (P : PieceCid) (t : Int)
    (h : P ∈ (NextPiecesToCheck db st now).1) (ht : alGet st.checked P = some t) :
    t ≤ now - minPieceCheckPeriod :=
  nptcLoop_only_stale now _ st.checked P t h ht

theorem runDoctor_not_returned (db : DB) :
    ∀ (mid : List Int) (st : DoctorState) (nowj : Int) (P : PieceCid) (t : Int),
      alGet st.checked P = some t →
      (∀ u ∈ mid, t ≤ u) →
      List.Pairwise (· ≤ ·) mid →
      nowj < t + minPieceCheckPeriod →
      P ∉ (NextPiecesToCheck db (doctorStateAfter db st mid) nowj).1 := by
  intro mid
  induction mid with
  | nil =>
    intro st nowj P t ht _ _ hperiod
    exact (nptc_skip db st nowj P t ht (by omega)).1
  | cons now mid' ih =>
    intro st nowj P t ht hfuture hpair hperiod
    have hnow : t ≤ now := hfuture now (List.mem_cons_self _ _)
    rw [doctorStateAfter]
    rcases nptc_evolve db st now P t ht with h | h
    · exact ih _ nowj P t h (fun u hu => hfuture u (List.mem_cons_of_mem _ hu))
        (List.pairwise_cons.mp hpair).2 hperiod
    · exact ih _ nowj P now h (List.pairwise_cons.mp hpair).1
        (List.pairwise_cons.mp hpair).2 (by omega)

theorem doctorStateAfter_append (db : DB) :
    ∀ (l1 l2 : List Int) (st : DoctorState),
      doctorStateAfter db st (l1 ++ l2)
        = doctorStateAfter db (doctorStateAfter db st l1) l2 := by
  intro l1
  induction l1 with
  | nil => intro l2 st; rfl
  | cons now rest ih =>
    intro l2 st
    rw [List.cons_append, doctorStateAfter, doctorStateAfter]
    exact ih l2 _

theorem runDoctor_getD (db : DB) :
    ∀ (times : List Int) (st : DoctorState) (i : Nat), i < times.length →
      (runDoctor db st times).getD i []
        = (NextPiecesToCheck db (doctorStateAfter db st (times.take i))
            (times.getD i 0)).1 := by
  intro times
  induction times with
  | nil => intro st i h; cases h
  | cons now rest ih =>
    intro st i hi
    match i with
    | 0 => rfl
    | i' + 1 =>
      have hstep : (runDoctor db st (now :: rest)).getD (i' + 1) []
          = (runDoctor db (NextPiecesToCheck db st now).2 rest).getD i' [] := rfl
      rw [hstep, ih _ i' (by simpa using hi)]
      rfl

/-! ## Claim C10 -/

/-- C10 counterexample: with one piece last handed out at time 0, a second
NextPiecesToCheck call at time 0 + MinPieceCheckPeriod returns the piece
again — the code's `t.After(now.Add(-MinPieceCheckPeriod))` test
(db.go:441) is strict, so at the exact boundary the piece is returned even
though its last recorded check is not strictly earlier than
`now − MinPieceCheckPeriod`, refuting the claim's second clause at this
input. -/
theorem nextPiecesToCheck_boundary :
    (runDoctor ⟨[(1, ⟨100, "", ""⟩)], [], [], []⟩ ⟨0, []⟩ [0, 30]).getD 1 [] = [1]
    ∧ ¬ ((0 : Int) < 30 - minPieceCheckPeriod) := by
  constructor
  · decide
  · decide

/-- C10 amended: across every sequence of NextPiecesToCheck calls from a
single caller at nondecreasing times, a piece returned by one call is
never returned again by a later call made less than MinPieceCheckPeriod
after it; and a single call returns only pieces with no recorded check or
whose last recorded check is at or before `now − MinPieceCheckPeriod`
(the boundary case included, the comparison being non-strict). -/
theorem nextPiecesToCheck_schedule (db : DB) :
    (∀ (times : List Int) (i j : Nat) (P : PieceCid),
      List.Pairwise (· ≤ ·) times → i < j → j < times.length →
      times.getD j 0 < times.getD i 0 + minPieceCheckPeriod →
      P ∈ (runDoctor db ⟨0, []⟩ times).getD i [] →
      P ∉ (runDoctor db ⟨0, []⟩ times).getD j [])
    ∧ (∀ (st : DoctorState) (now : Int) (P : PieceCid) (t : Int),
      P ∈ (NextPiecesToCheck db st now).1 → alGet st.checked P = some t →
      t ≤ now - minPieceCheckPeriod) := by
  constructor
  · intro times i j P hpair hij hj hperiod hPi
    have hi : i < times.length := lt_trans hij hj
    rw [runDoctor_getD db times _ i hi] at hPi
    rw [runDoctor_getD db times _ j hj]
    have htake : times.take (i + 1) = times.take i ++ [times.getD i 0] := by
      rw [List.take_succ, List.getElem?_eq_getElem hi, List.getD_eq_getElem _ _ hi]
      rfl
    have hstamp : alGet (doctorStateAfter db ⟨0, []⟩ (times.take (i + 1))).checked P
        = some (times.getD i 0) := by
      rw [htake, doctorStateAfter_append]
      show alGet (NextPiecesToCheck db (doctorStateAfter db ⟨0, []⟩ (times.take i))
          (times.getD i 0)).2.checked P = some (times.getD i 0)
      exact nptc_stamps db _ _ P hPi
    have hjdecomp : times.take j
        = times.take (i + 1) ++ (times.drop (i + 1)).take (j - (i + 1)) := by
      rw [← List.take_add]
      congr 1
      omega
    rw [hjdecomp, doctorStateAfter_append]
    apply runDoctor_not_returned db _ _ _ P (times.getD i 0) hstamp ?hfut ?hpairmid ?hper
    case hfut =>
      intro u hu
      have hu' : u ∈ times.drop (i + 1) := List.take_subset _ _ hu
      obtain ⟨k, hk, rfl⟩ := List.mem_iff_getElem.mp hu'
      rw [List.getElem_drop, List.getD_eq_getElem _ _ hi]
      have hk' : i + 1 + k < times.length := by
        rw [List.length_drop] at hk
        omega
      exact List.pairwise_iff_getElem.mp hpair i (i + 1 + k) hi hk' (by omega)
    case hpairmid =>
      exact List.Pairwise.sublist
        ((List.take_sublist _ _).trans (List.drop_sublist _ _)) hpair
    case hper => exact hperiod
  · intro st now P t h ht
    exact nptc_only_stale db st now P t h ht

/-- Witness for the amended C10: one piece, calls at times 0 and 10 —
returned by the first call, not by the second; and a stale last check at
−100 is at or before `0 − 30`. -/
theorem nextPiecesToCheck_schedule_witness :
    (1 : PieceCid) ∉ (runDoctor ⟨[(1, ⟨100, "", ""⟩)], [], [], []⟩ ⟨0, []⟩ [0, 10]).getD 1 []
    ∧ (-100 : Int) ≤ 0 - minPieceCheckPeriod := by
  constructor
  · exact (nextPiecesToCheck_schedule ⟨[(1, ⟨100, "", ""⟩)], [], [], []⟩).1 [0, 10] 0 1 1
      (by decide) (by decide) (by decide) (by decide) (by decide)
  · exact (nextPiecesToCheck_schedule ⟨[(1, ⟨100, "", ""⟩)], [], [], []⟩).2
      ⟨0, [(1, -100)]⟩ 0 1 (-100) (by decide) (by decide)

end Boost
